import Mathlib

/-!
Verification of the robot-emulator motion/sensor core.

Shallow embedding of the simulation kernel: the `GoPiGoMotor` speed model
and the ray/segment distance sensor (src/bots/gopigo/gopigo.py), the
differential-drive kinematics integrator and the scheduler's deferred-action
drain (src/emu.py).  Python floats are modelled as exact numbers: `ℚ` for
the motor arithmetic (only ring operations, `min`/`max`, `abs` and
comparisons occur there) and `ℝ` for the trigonometric kinematics and the
ray geometry.  Python's `None` target is `Option.none`; the `float('inf')`
accumulator of the raytrace loop is `Option.none`; Python's
`ZeroDivisionError` is modelled by `Option`-valued "checked" variants whose
`none` is the raised exception.
-/

namespace RobotEmu

/-- State of a `GoPiGoMotor` (gopigo.py, `__init__`, lines 5-12). -/
structure GoPiGoMotor where
  encoder : ℚ
  limit : ℚ
  speed : ℚ
  target : Option ℚ
  accel : ℚ
  decel : ℚ
  velocity : ℚ
deriving DecidableEq

/-- A freshly constructed motor: `GoPiGoMotor.__init__`. -/
def GoPiGoMotor.init : GoPiGoMotor :=
  { encoder := 0, limit := 0, speed := 0, target := none,
    accel := 5400, decel := 5800, velocity := 0 }

/-- `GoPiGoMotor._target_reached` (line 14-15) at its default precision 2,
for a motor whose target is `t`. -/
def GoPiGoMotor.target_reached (m : GoPiGoMotor) (t : ℚ) : Prop :=
  |m.encoder - t| ≤ 2

instance (m : GoPiGoMotor) (t : ℚ) : Decidable (m.target_reached t) := by
  unfold GoPiGoMotor.target_reached; infer_instance

/-- `GoPiGoMotor._update_velocity` (lines 17-23): the bounded
acceleration/deceleration ramp value is computed into `velocity`, and then
line 23 unconditionally overwrites `velocity` with `desired_speed`. -/
def GoPiGoMotor.update_velocity (m : GoPiGoMotor) (desired_speed delta_time : ℚ) :
    GoPiGoMotor :=
  let a := if |m.velocity| < |desired_speed| then m.accel else m.decel
  let m1 :=
    if m.velocity < desired_speed then
      { m with velocity := min (m.velocity + a * delta_time) desired_speed }
    else if desired_speed < m.velocity then
      { m with velocity := max (m.velocity - a * delta_time) desired_speed }
    else m
  { m1 with velocity := desired_speed }

/-- The `desired_speed` computed at the top of `GoPiGoMotor.update`
(lines 27-32).  `(1 if self.target > self.encoder else -1)` is the inner
`if`. -/
def GoPiGoMotor.desired_speed (m : GoPiGoMotor) : ℚ :=
  match m.target with
  | none => min (max m.speed (-m.limit)) m.limit
  | some t =>
      if ¬ m.target_reached t then m.limit * (if m.encoder < t then 1 else -1)
      else 0

/-- `GoPiGoMotor.update` (lines 26-36): one step; returns the new state and
the delta rotation in degrees. -/
def GoPiGoMotor.update (m : GoPiGoMotor) (delta_time : ℚ) : GoPiGoMotor × ℚ :=
  let m1 := m.update_velocity m.desired_speed delta_time
  let delta_rotate := m1.velocity * delta_time
  ({ m1 with encoder := m1.encoder + delta_rotate }, delta_rotate)

/-- `GoPiGoMotor.set_position` (lines 38-40). -/
def GoPiGoMotor.set_position (m : GoPiGoMotor) (degrees : ℚ) : GoPiGoMotor :=
  { m with target := some degrees, speed := 0 }

/-- Python's `int(q)`: truncation toward zero. -/
def intTrunc (q : ℚ) : ℤ :=
  if q < 0 then ⌈q⌉ else ⌊q⌋

/-- `GoPiGoMotor.get_encoder` (lines 42-43): `int(self.encoder + 0.5)`. -/
def GoPiGoMotor.get_encoder (m : GoPiGoMotor) : ℤ :=
  intTrunc (m.encoder + 1/2)

/-- `GoPiGoMotor.set_limits` (lines 45-47): a negative `dps` is silently
negated. -/
def GoPiGoMotor.set_limits (m : GoPiGoMotor) (dps : ℚ) : GoPiGoMotor :=
  { m with limit := if dps < 0 then -dps else dps }

/-- `GoPiGoMotor.set_dps` (lines 55-57). -/
def GoPiGoMotor.set_dps (m : GoPiGoMotor) (dps : ℚ) : GoPiGoMotor :=
  { m with target := none, speed := dps }

/-- `GoPiGoMotor.set_power` (lines 49-53). -/
def GoPiGoMotor.set_power (m : GoPiGoMotor) (power : ℤ) : GoPiGoMotor :=
  if power = -128 then m.set_dps 0 else m.set_dps ((power : ℚ) / 127 * 500)

/-- `GoPiGoMotor.offset_encoder` (lines 59-60). -/
def GoPiGoMotor.offset_encoder (m : GoPiGoMotor) (degrees : ℚ) : GoPiGoMotor :=
  { m with encoder := m.encoder - degrees }

/-- The motor commands a user program can issue (plus `update`, issued by the
scheduler tick). -/
inductive MotorOp where
  | setPower (power : ℤ)
  | setDps (dps : ℚ)
  | setPosition (degrees : ℚ)
  | setLimits (dps : ℚ)
  | update (dt : ℚ)
deriving DecidableEq

/-- Apply one command to a motor (an `update`'s return value is dropped). -/
def applyOp (m : GoPiGoMotor) : MotorOp → GoPiGoMotor
  | .setPower p => m.set_power p
  | .setDps d => m.set_dps d
  | .setPosition d => m.set_position d
  | .setLimits d => m.set_limits d
  | .update dt => (m.update dt).1

/-- Apply a sequence of commands, first element first. -/
def applyOps (m : GoPiGoMotor) : List MotorOp → GoPiGoMotor
  | [] => m
  | op :: rest => applyOps (applyOp m op) rest

/-- `n` scheduler ticks of a single motor at a fixed `delta_time`. -/
def motorIter (m : GoPiGoMotor) (dt : ℚ) : ℕ → GoPiGoMotor
  | 0 => m
  | n + 1 => ((motorIter m dt n).update dt).1

/-- A fresh motor given `set_limits(10)` then `set_position(3)`: with
`delta_time = 1` each step moves the encoder by `limit * delta_time = 10`
degrees, which overshoots the 2-degree window around the target. -/
def c5motor : GoPiGoMotor :=
  (GoPiGoMotor.init.set_limits 10).set_position 3

/-- The deferred-action drain of `Playground.update` (emu.py lines 51-53),
over an abstract action type `α`: an action `a`'s behaviour is `enq a`, the
actions it appends to the schedule queue (via `Playground.run_once`, line
74-75) while it runs.  Python's `for schedule in self.schedules` iterates
by index, so actions appended during the drain are reached by the same
loop.  `done` accumulates the actions executed so far, in order; `fuel`
bounds the number of loop iterations, and `none` models a drain that does
not finish within `fuel` actions (a self-re-queueing action makes the
Python loop run forever). -/
def drainGo {α : Type} (enq : α → List α) : ℕ → List α → List α → Option (List α)
  | _, done, [] => some done
  | 0, _, _ :: _ => none
  | fuel + 1, done, a :: rest => drainGo enq fuel (done ++ [a]) (rest ++ enq a)

/-- One scheduler tick's deferred-action processing: run the drain, then
`schedules.clear()` empties the queue.  Returns (actions executed in order,
queue left for the next tick). -/
def tickDrain {α : Type} (enq : α → List α) (fuel : ℕ) (queue : List α) :
    Option (List α × List α) :=
  (drainGo enq fuel [] queue).map fun done => (done, [])

/-- `run_once` effects for the concrete C4 scenario: action 0 (A) queues
action 3 (D) during the drain; actions 1, 2 and 3 queue nothing. -/
def c4enq : ℕ → List ℕ := fun a => if a = 0 then [3] else []

/-- Pose of a bot (emu.py `Bot.__init__`): position `x, y` in mm, world
frame, and `heading` in radians. -/
@[ext]
structure Pose where
  x : ℝ
  y : ℝ
  heading : ℝ

/-- The pose update of `TwoWheelsBot.add_wheel_delta` (emu.py lines
207-251): the two wheel rotation deltas (degrees) are converted to arc
lengths, giving the heading change `k` and mean travel `s` of the tick, and
the position advances along a constant-curvature arc (closed form when
`k ≠ 0`, straight line otherwise); the new heading is `heading + k`. -/
noncomputable def add_wheel_delta (wheel_diameter wheels_distance : ℝ)
    (left_delta right_delta : ℝ) (p : Pose) : Pose :=
  let k := ((right_delta - left_delta) * Real.pi * wheel_diameter / 360) / wheels_distance
  let s := ((right_delta + left_delta) * Real.pi * wheel_diameter / 360) / 2
  if k ≠ 0 then
    { x := p.x + (Real.sin (k + p.heading) - Real.sin p.heading) / k * s,
      y := p.y + (-Real.cos (k + p.heading) + Real.cos p.heading) / k * s,
      heading := p.heading + k }
  else
    { x := p.x + Real.cos p.heading * s,
      y := p.y + Real.sin p.heading * s,
      heading := p.heading + k }

/-- A boundary segment `(x1, y1, x2, y2)`. -/
abbrev Seg := ℝ × ℝ × ℝ × ℝ

/-- `GoPiGoDistanceSensor.intersection` (gopigo.py lines 109-143): the
distance from `(x, y)` along ray direction `(dx, dy)` to the segment
`(x1, y1)-(x2, y2)`, or `-1` when the configuration is rejected. -/
noncomputable def intersection (x y dx dy x1 y1 x2 y2 : ℝ) : ℝ :=
  let idx := x2 - x1
  let idy := y2 - y1
  if dx = 0 then
    if idx = 0 then -1
    else
      let d := (x - x1) / idx * idy + y1 - y
      if dy < 0 ∧ d < 0 then -d
      else if 0 < dy ∧ 0 < d then d
      else -1
  else
    let a := idy - idx * (dy / dx)
    if a = 0 then -1
    else
      let t := (y - y1 + (x1 - x) * (dy / dx)) / a
      let k := (x1 + t * idx - x) / dx
      if k < 0 ∨ 1 < t ∨ t < 0 then -1
      else Real.sqrt ((t * idx + x1 - x)^2 + (t * idy + y1 - y)^2)

/-- `self.intersection(x, y, dx, dy, *seg)`: the star-unpacked call of
`raytrace`. -/
noncomputable def segInter (x y dx dy : ℝ) (sg : Seg) : ℝ :=
  intersection x y dx dy sg.1 sg.2.1 sg.2.2.1 sg.2.2.2

/-- The loop of `GoPiGoDistanceSensor.raytrace` (lines 101-107): `best` is
the best distance so far, `none` standing for the initial `float('inf')`;
a segment's distance is kept when `d >= 0 and d < best_d`. -/
noncomputable def raytraceGo (x y dx dy : ℝ) : List Seg → Option ℝ → Option ℝ
  | [], best => best
  | sg :: rest, best =>
      let d := segInter x y dx dy sg
      match best with
      | none =>
          if 0 ≤ d then raytraceGo x y dx dy rest (some d)
          else raytraceGo x y dx dy rest none
      | some b =>
          if 0 ≤ d ∧ d < b then raytraceGo x y dx dy rest (some d)
          else raytraceGo x y dx dy rest (some b)

/-- `GoPiGoDistanceSensor.raytrace`: `none` is the `float('inf')` result. -/
noncomputable def raytrace (x y dx dy : ℝ) (segments : List Seg) : Option ℝ :=
  raytraceGo x y dx dy segments none

/-- `GoPiGoDistanceSensor.read_mm` (lines 89-99) for a bot at `(x, y)` with
the given heading, in the arena rectangle `(r0, r1, r2, r3)`
(`playground.rect`): cast a ray along `(cos heading, sin heading)` against
the 4 boundary segments; an infinite result saturates to 8190. -/
noncomputable def read_mm (x y heading r0 r1 r2 r3 : ℝ) : ℝ :=
  let segments : List Seg :=
    [(r0, r1, r2, r1), (r2, r1, r2, r3), (r2, r3, r0, r3), (r0, r3, r0, r1)]
  match raytrace x y (Real.cos heading) (Real.sin heading) segments with
  | none => 8190
  | some d => d

/-- A Python division: `ZeroDivisionError` (`none`) when the denominator is
zero, the quotient otherwise. -/
noncomputable def divChecked (p q : ℝ) : Option ℝ :=
  if q = 0 then none else some (p / q)

/-- `intersection` with every division checked as Python evaluates it:
`none` models a raised `ZeroDivisionError`. -/
noncomputable def intersectionChecked (x y dx dy x1 y1 x2 y2 : ℝ) : Option ℝ :=
  let idx := x2 - x1
  let idy := y2 - y1
  if dx = 0 then
    if idx = 0 then some (-1)
    else
      (divChecked (x - x1) idx).bind fun q0 =>
        let d := q0 * idy + y1 - y
        if dy < 0 ∧ d < 0 then some (-d)
        else if 0 < dy ∧ 0 < d then some d
        else some (-1)
  else
    (divChecked dy dx).bind fun q1 =>
      let a := idy - idx * q1
      if a = 0 then some (-1)
      else
        (divChecked dy dx).bind fun q2 =>
          (divChecked (y - y1 + (x1 - x) * q2) a).bind fun t =>
            (divChecked (x1 + t * idx - x) dx).bind fun k =>
              if k < 0 ∨ 1 < t ∨ t < 0 then some (-1)
              else some (Real.sqrt ((t * idx + x1 - x)^2 + (t * idy + y1 - y)^2))

/-- `add_wheel_delta` with its divisions by `wheels_distance` and by `k`
checked as Python evaluates them. -/
noncomputable def add_wheel_deltaChecked (wheel_diameter wheels_distance : ℝ)
    (left_delta right_delta : ℝ) (p : Pose) : Option Pose :=
  (divChecked ((right_delta - left_delta) * Real.pi * wheel_diameter / 360)
      wheels_distance).bind fun k =>
    let s := ((right_delta + left_delta) * Real.pi * wheel_diameter / 360) / 2
    if k ≠ 0 then
      (divChecked (Real.sin (k + p.heading) - Real.sin p.heading) k).bind fun fx =>
        (divChecked (-Real.cos (k + p.heading) + Real.cos p.heading) k).bind fun fy =>
          some { x := p.x + fx * s, y := p.y + fy * s, heading := p.heading + k }
    else
      some { x := p.x + Real.cos p.heading * s,
             y := p.y + Real.sin p.heading * s,
             heading := p.heading + k }

/-- The raytrace loop with each `intersection` call checked. -/
noncomputable def raytraceGoChecked (x y dx dy : ℝ) :
    List Seg → Option ℝ → Option (Option ℝ)
  | [], best => some best
  | sg :: rest, best =>
      (intersectionChecked x y dx dy sg.1 sg.2.1 sg.2.2.1 sg.2.2.2).bind fun d =>
        match best with
        | none =>
            if 0 ≤ d then raytraceGoChecked x y dx dy rest (some d)
            else raytraceGoChecked x y dx dy rest none
        | some b =>
            if 0 ≤ d ∧ d < b then raytraceGoChecked x y dx dy rest (some d)
            else raytraceGoChecked x y dx dy rest (some b)

/-- `raytrace` with divisions checked. -/
noncomputable def raytraceChecked (x y dx dy : ℝ) (segments : List Seg) :
    Option (Option ℝ) :=
  raytraceGoChecked x y dx dy segments none

/-- `read_mm` with divisions checked. -/
noncomputable def read_mmChecked (x y heading r0 r1 r2 r3 : ℝ) : Option ℝ :=
  let segments : List Seg :=
    [(r0, r1, r2, r1), (r2, r1, r2, r3), (r2, r3, r0, r3), (r0, r3, r0, r1)]
  (raytraceChecked x y (Real.cos heading) (Real.sin heading) segments).map
    fun o => match o with
      | none => 8190
      | some d => d

end RobotEmu

namespace RobotEmu

theorem update_velocity_eq (m : GoPiGoMotor) (d dt : ℚ) :
    m.update_velocity d dt = { m with velocity := d } := by
  unfold GoPiGoMotor.update_velocity
  split_ifs <;> rfl

/-- The closed form of one motor step: velocity snaps to the desired speed
and the encoder advances by `desired_speed * delta_time`. -/
theorem update_eq (m : GoPiGoMotor) (dt : ℚ) :
    m.update dt =
      ({ m with velocity := m.desired_speed,
                encoder := m.encoder + m.desired_speed * dt },
       m.desired_speed * dt) := by
  unfold GoPiGoMotor.update
  rw [update_velocity_eq]

/-- Claim C1: after a call to `GoPiGoMotor.update` the committed velocity
equals the `desired_speed` computed for that step — `clamp(speed, -limit,
limit)` when no target is set, `limit * sign(target - encoder)` (the sign
written as the source's `if target > encoder then 1 else -1`) when a target
is set and the 2-degree threshold is not met, and `0` otherwise — and the
bounded acceleration/deceleration ramp is inert: changing `accel` and
`decel` changes neither the committed velocity nor the returned delta
rotation. -/
theorem C1_update_commits_desired_speed (m : GoPiGoMotor) (dt : ℚ) :
    (m.target = none →
      ((m.update dt).1).velocity = min (max m.speed (-m.limit)) m.limit) ∧
    (∀ t : ℚ, m.target = some t → 2 < |m.encoder - t| →
      ((m.update dt).1).velocity = m.limit * (if m.encoder < t then 1 else -1)) ∧
    (∀ t : ℚ, m.target = some t → |m.encoder - t| ≤ 2 →
      ((m.update dt).1).velocity = 0) ∧
    (∀ a d : ℚ,
      (({ m with accel := a, decel := d } : GoPiGoMotor).update dt).1.velocity
        = ((m.update dt).1).velocity ∧
      (({ m with accel := a, decel := d } : GoPiGoMotor).update dt).2
        = (m.update dt).2) := by
  refine ⟨fun h => ?_, fun t ht hfar => ?_, fun t ht hnear => ?_, fun a d => ?_⟩
  · rw [update_eq]
    simp [GoPiGoMotor.desired_speed, h]
  · rw [update_eq]
    simp only [GoPiGoMotor.desired_speed, ht, GoPiGoMotor.target_reached]
    rw [if_pos (not_le.mpr hfar)]
  · rw [update_eq]
    simp only [GoPiGoMotor.desired_speed, ht, GoPiGoMotor.target_reached]
    rw [if_neg (not_not.mpr hnear)]
  · rw [update_eq, update_eq]
    simp [GoPiGoMotor.desired_speed, GoPiGoMotor.target_reached]

/-- Claim C7: `set_limits` stores the absolute value of its argument as the
speed limit, never fails, changes no other field, and behaves identically on
`dps` and `-dps`. -/
theorem C7_set_limits_stores_abs (m : GoPiGoMotor) (dps : ℚ) :
    m.set_limits dps = { m with limit := |dps| } ∧
    m.set_limits (-dps) = m.set_limits dps := by
  constructor
  · unfold GoPiGoMotor.set_limits
    rcases lt_or_le dps 0 with h | h
    · rw [if_pos h, abs_of_neg h]
    · rw [if_neg (not_lt.mpr h), abs_of_nonneg h]
  · unfold GoPiGoMotor.set_limits
    rcases lt_trichotomy dps 0 with h | h | h
    · rw [if_neg (by linarith : ¬ -dps < 0), if_pos h]
    · rw [h]; norm_num
    · rw [if_neg (by linarith : ¬ dps < 0), if_pos (by linarith : -dps < 0), neg_neg]

/-- A motor whose speed limit is 0 cannot move: one update only zeroes the
velocity and returns a zero delta rotation. -/
theorem update_of_limit_zero (m : GoPiGoMotor) (dt : ℚ) (hl : m.limit = 0) :
    m.update dt = ({ m with velocity := 0 }, 0) := by
  have hd : m.desired_speed = 0 := by
    unfold GoPiGoMotor.desired_speed
    cases ht : m.target with
    | none =>
        rw [hl, neg_zero]
        exact min_eq_right (le_max_right _ _)
    | some t =>
        rw [hl]
        split <;> simp
  rw [update_eq, hd]
  simp

/-- Every command except a nonzero `set_limits` preserves the all-zero
observable state (encoder, velocity, limit). -/
theorem applyOp_preserves_rest (m : GoPiGoMotor) (op : MotorOp)
    (hop : ∀ q : ℚ, op = MotorOp.setLimits q → q = 0)
    (he : m.encoder = 0) (hv : m.velocity = 0) (hl : m.limit = 0) :
    (applyOp m op).encoder = 0 ∧ (applyOp m op).velocity = 0 ∧
      (applyOp m op).limit = 0 := by
  cases op with
  | setPower p =>
      simp only [applyOp, GoPiGoMotor.set_power]
      by_cases hp : p = -128 <;> simp [hp, GoPiGoMotor.set_dps, he, hv, hl]
  | setDps d =>
      simp only [applyOp]
      exact ⟨he, hv, hl⟩
  | setPosition d =>
      simp only [applyOp]
      exact ⟨he, hv, hl⟩
  | setLimits q =>
      have hq : q = 0 := hop q rfl
      subst hq
      simp only [applyOp, GoPiGoMotor.set_limits]
      exact ⟨he, hv, by norm_num⟩
  | update dt =>
      have h0 := update_of_limit_zero m dt hl
      simp only [applyOp]
      rw [h0]
      exact ⟨he, rfl, hl⟩

theorem applyOps_all_zero (ops : List MotorOp)
    (h : ∀ q : ℚ, MotorOp.setLimits q ∈ ops → q = 0) :
    ∀ m : GoPiGoMotor, m.encoder = 0 → m.velocity = 0 → m.limit = 0 →
      (applyOps m ops).encoder = 0 ∧ (applyOps m ops).velocity = 0 ∧
        (applyOps m ops).limit = 0 := by
  induction ops with
  | nil => exact fun m he hv hl => ⟨he, hv, hl⟩
  | cons op rest ih =>
      intro m he hv hl
      have hop : ∀ q : ℚ, op = MotorOp.setLimits q → q = 0 := fun q hq =>
        h q (hq ▸ List.mem_cons_self op rest)
      obtain ⟨he', hv', hl'⟩ := applyOp_preserves_rest m op hop he hv hl
      exact ih (fun q hq => h q (List.mem_cons_of_mem _ hq)) (applyOp m op) he' hv' hl'

/-- Claim C8: a fresh `GoPiGoMotor` has `limit = 0`, and while `set_limits`
has only ever been called with argument 0, every sequence of commands leaves
`encoder = 0` and `velocity = 0`, and any further `update` returns a zero
delta rotation: commands produce no motion until a positive speed limit is
set. -/
theorem C8_no_motion_before_limit (ops : List MotorOp)
    (h : ∀ q : ℚ, MotorOp.setLimits q ∈ ops → q = 0) :
    GoPiGoMotor.init.limit = 0 ∧
    (applyOps GoPiGoMotor.init ops).encoder = 0 ∧
    (applyOps GoPiGoMotor.init ops).velocity = 0 ∧
    ∀ dt : ℚ, ((applyOps GoPiGoMotor.init ops).update dt).2 = 0 := by
  obtain ⟨he, hv, hl⟩ := applyOps_all_zero ops h GoPiGoMotor.init rfl rfl rfl
  exact ⟨rfl, he, hv, fun dt => by rw [update_of_limit_zero _ _ hl]⟩

/-- Witness for C8 at a concrete command sequence. -/
theorem C8_no_motion_before_limit_witness :
    GoPiGoMotor.init.limit = 0 ∧
    (applyOps GoPiGoMotor.init
      [MotorOp.setPower 100, MotorOp.update 1, MotorOp.setLimits 0,
       MotorOp.setDps 50, MotorOp.setPosition 7,
       MotorOp.update (1/2)]).encoder = 0 ∧
    (applyOps GoPiGoMotor.init
      [MotorOp.setPower 100, MotorOp.update 1, MotorOp.setLimits 0,
       MotorOp.setDps 50, MotorOp.setPosition 7,
       MotorOp.update (1/2)]).velocity = 0 ∧
    ∀ dt : ℚ, ((applyOps GoPiGoMotor.init
      [MotorOp.setPower 100, MotorOp.update 1, MotorOp.setLimits 0,
       MotorOp.setDps 50, MotorOp.setPosition 7,
       MotorOp.update (1/2)]).update dt).2 = 0 :=
  C8_no_motion_before_limit _ (by intro q hq; simpa using hq)

theorem update_target (m : GoPiGoMotor) (dt : ℚ) :
    ((m.update dt).1).target = m.target := by
  rw [update_eq]

theorem update_limit (m : GoPiGoMotor) (dt : ℚ) :
    ((m.update dt).1).limit = m.limit := by
  rw [update_eq]

/-- One step of a motor whose target is reached: the velocity is zeroed, the
encoder does not move, and the returned delta rotation is 0. -/
theorem update_reached {m : GoPiGoMotor} {t : ℚ} (ht : m.target = some t)
    (hr : |m.encoder - t| ≤ 2) (dt : ℚ) :
    m.update dt = ({ m with velocity := 0 }, 0) := by
  have hd : m.desired_speed = 0 := by
    unfold GoPiGoMotor.desired_speed
    rw [ht]
    simp [GoPiGoMotor.target_reached, hr]
  rw [update_eq, hd]
  simp

/-- One step of a motor strictly below a far target: the encoder advances by
`limit * delta_time`. -/
theorem update_encoder_far_lt {m : GoPiGoMotor} {t : ℚ} (ht : m.target = some t)
    (hfar : ¬ |m.encoder - t| ≤ 2) (hlt : m.encoder < t) (dt : ℚ) :
    ((m.update dt).1).encoder = m.encoder + m.limit * dt := by
  have hd : m.desired_speed = m.limit := by
    unfold GoPiGoMotor.desired_speed
    rw [ht]
    simp [GoPiGoMotor.target_reached, hfar, hlt]
  rw [update_eq, hd]

/-- One step of a motor strictly above a far target: the encoder retreats by
`limit * delta_time`. -/
theorem update_encoder_far_gt {m : GoPiGoMotor} {t : ℚ} (ht : m.target = some t)
    (hfar : ¬ |m.encoder - t| ≤ 2) (hgt : t < m.encoder) (dt : ℚ) :
    ((m.update dt).1).encoder = m.encoder - m.limit * dt := by
  have hd : m.desired_speed = -m.limit := by
    unfold GoPiGoMotor.desired_speed
    rw [ht]
    simp [GoPiGoMotor.target_reached, hfar, not_lt.mpr hgt.le]
  rw [update_eq, hd]
  simp only []
  ring_nf

theorem motorIter_add (m : GoPiGoMotor) (dt : ℚ) (a b : ℕ) :
    motorIter m dt (a + b) = motorIter (motorIter m dt a) dt b := by
  induction b with
  | zero => rfl
  | succ b ih =>
      show ((motorIter m dt (a + b)).update dt).1 = _
      rw [ih]
      rfl

theorem motorIter_succ_front (m : GoPiGoMotor) (dt : ℚ) (n : ℕ) :
    motorIter m dt (n + 1) = motorIter ((m.update dt).1) dt n := by
  rw [Nat.add_comm, motorIter_add]
  rfl

theorem motorIter_target (m : GoPiGoMotor) (dt : ℚ) (n : ℕ) :
    (motorIter m dt n).target = m.target := by
  induction n with
  | zero => rfl
  | succ n ih =>
      show ((motorIter m dt n).update dt).1.target = m.target
      rw [update_target, ih]

theorem motorIter_limit (m : GoPiGoMotor) (dt : ℚ) (n : ℕ) :
    (motorIter m dt n).limit = m.limit := by
  induction n with
  | zero => rfl
  | succ n ih =>
      show ((motorIter m dt n).update dt).1.limit = m.limit
      rw [update_limit, ih]

/-- Once the target is reached the encoder never moves again. -/
theorem motorIter_hold {m : GoPiGoMotor} {P : ℚ} (ht : m.target = some P)
    (hr : |m.encoder - P| ≤ 2) (dt : ℚ) :
    ∀ j : ℕ, (motorIter m dt j).encoder = m.encoder := by
  intro j
  induction j with
  | zero => rfl
  | succ j ih =>
      have ht' : (motorIter m dt j).target = some P := by rw [motorIter_target, ht]
      have hr' : |(motorIter m dt j).encoder - P| ≤ 2 := by rw [ih]; exact hr
      show ((motorIter m dt j).update dt).1.encoder = m.encoder
      rw [update_reached ht' hr' dt]
      exact ih

/-- While the step size `limit * delta_time` is at most twice the 2-degree
precision window, each unreached step shrinks the distance to the target by
exactly the step size, so the window is reached within `c` steps whenever
the initial distance is at most `2 + c * limit * delta_time`. -/
theorem reach_aux (P dt : ℚ) (hdt : 0 < dt) :
    ∀ (c : ℕ) (m : GoPiGoMotor), m.target = some P → 0 < m.limit →
      m.limit * dt ≤ 4 → |m.encoder - P| ≤ 2 + c * (m.limit * dt) →
      ∃ N : ℕ, N ≤ c ∧ |(motorIter m dt N).encoder - P| ≤ 2 := by
  intro c
  induction c with
  | zero =>
      intro m ht hL hsmall hc
      refine ⟨0, le_refl 0, ?_⟩
      simpa using hc
  | succ c ih =>
      intro m ht hL hsmall hc
      by_cases hr : |m.encoder - P| ≤ 2
      · exact ⟨0, Nat.zero_le _, hr⟩
      · have hδpos : 0 < m.limit * dt := mul_pos hL hdt
        have hcnn : (0:ℚ) ≤ (c : ℚ) * (m.limit * dt) :=
          mul_nonneg (Nat.cast_nonneg c) hδpos.le
        have habs := abs_le.mp hc
        push_cast at habs
        have h2 : 2 < |m.encoder - P| := not_le.mp hr
        have ht' : ((m.update dt).1).target = some P := by rw [update_target, ht]
        have hL' : 0 < ((m.update dt).1).limit := by rw [update_limit]; exact hL
        have hsmall' : ((m.update dt).1).limit * dt ≤ 4 := by
          rw [update_limit]; exact hsmall
        have hstep : |((m.update dt).1).encoder - P| ≤
            2 + c * (((m.update dt).1).limit * dt) := by
          rw [update_limit]
          rcases lt_or_le m.encoder P with hlt | hge
          · have hPd : 2 < P - m.encoder := by
              rw [abs_sub_comm, abs_of_pos (by linarith)] at h2
              exact h2
            rw [update_encoder_far_lt ht hr hlt dt, abs_le]
            constructor <;> nlinarith [habs.1, habs.2]
          · have hPd : 2 < m.encoder - P := by
              have hne : P < m.encoder := by
                rcases lt_or_eq_of_le hge with h | h
                · exact h
                · exfalso; apply hr; rw [← h]; simp
              rw [abs_of_pos (by linarith)] at h2
              exact h2
            have hgt : P < m.encoder := by linarith
            rw [update_encoder_far_gt ht hr hgt dt, abs_le]
            constructor <;> nlinarith [habs.1, habs.2]
        obtain ⟨N, hN, hreach⟩ := ih ((m.update dt).1) ht' hL' hsmall' hstep
        refine ⟨N + 1, Nat.succ_le_succ hN, ?_⟩
        rw [motorIter_succ_front]
        exact hreach

/-- Claim C5 (amended): for a motor with a set target `P`, a positive speed
limit and a positive `delta_time` such that the per-step move
`limit * delta_time` is at most 4 degrees (twice the 2-degree precision
threshold), repeated `update` calls eventually bring the encoder within 2
degrees of `P`, and from then on the encoder never changes and every
further `update` returns 0. -/
theorem C5_position_mode_converges (m : GoPiGoMotor) (P dt : ℚ)
    (ht : m.target = some P) (hL : 0 < m.limit) (hdt : 0 < dt)
    (hsmall : m.limit * dt ≤ 4) :
    ∃ N : ℕ, ∀ n : ℕ, N ≤ n →
      |(motorIter m dt n).encoder - P| ≤ 2 ∧
      (motorIter m dt n).encoder = (motorIter m dt N).encoder ∧
      ((motorIter m dt n).update dt).2 = 0 := by
  have hδpos : 0 < m.limit * dt := mul_pos hL hdt
  obtain ⟨c, hcge⟩ := exists_nat_ge ((|m.encoder - P| - 2) / (m.limit * dt))
  have hc : |m.encoder - P| ≤ 2 + c * (m.limit * dt) := by
    have h := (div_le_iff₀ hδpos).mp hcge
    linarith
  obtain ⟨N, _, hreach⟩ := reach_aux P dt hdt c m ht hL hsmall hc
  refine ⟨N, fun n hn => ?_⟩
  have ht1 : (motorIter m dt N).target = some P := by
    rw [motorIter_target]; exact ht
  obtain ⟨j, rfl⟩ := Nat.exists_eq_add_of_le hn
  rw [motorIter_add]
  have hold := motorIter_hold ht1 hreach dt j
  have ht2 : (motorIter (motorIter m dt N) dt j).target = some P := by
    rw [motorIter_target]; exact ht1
  have hr2 : |(motorIter (motorIter m dt N) dt j).encoder - P| ≤ 2 := by
    rw [hold]; exact hreach
  exact ⟨hr2, hold, by rw [update_reached ht2 hr2 dt]⟩

/-- Witness for C5 at a concrete motor: limit 2, target 10, `delta_time` 1. -/
theorem C5_position_mode_converges_witness :
    ∃ N : ℕ, ∀ n : ℕ, N ≤ n →
      |(motorIter ((GoPiGoMotor.init.set_limits 2).set_position 10) 1 n).encoder
          - 10| ≤ 2 ∧
      (motorIter ((GoPiGoMotor.init.set_limits 2).set_position 10) 1 n).encoder
        = (motorIter ((GoPiGoMotor.init.set_limits 2).set_position 10) 1 N).encoder ∧
      ((motorIter ((GoPiGoMotor.init.set_limits 2).set_position 10) 1 n).update 1).2
        = 0 :=
  C5_position_mode_converges _ 10 1 rfl
    (by norm_num [GoPiGoMotor.set_limits, GoPiGoMotor.set_position, GoPiGoMotor.init])
    (by norm_num)
    (by norm_num [GoPiGoMotor.set_limits, GoPiGoMotor.set_position, GoPiGoMotor.init])

theorem c5motor_iter_target (n : ℕ) :
    (motorIter c5motor 1 n).target = some 3 := by
  rw [motorIter_target]; rfl

theorem c5motor_iter_limit (n : ℕ) :
    (motorIter c5motor 1 n).limit = 10 := by
  rw [motorIter_limit]
  norm_num [c5motor, GoPiGoMotor.set_position, GoPiGoMotor.set_limits, GoPiGoMotor.init]

theorem c5motor_step_up (n : ℕ) (he : (motorIter c5motor 1 n).encoder = 0) :
    (motorIter c5motor 1 (n + 1)).encoder = 10 := by
  show ((motorIter c5motor 1 n).update 1).1.encoder = 10
  rw [update_encoder_far_lt (c5motor_iter_target n) (by rw [he]; norm_num)
    (by rw [he]; norm_num) 1, he, c5motor_iter_limit n]
  norm_num

theorem c5motor_step_down (n : ℕ) (he : (motorIter c5motor 1 n).encoder = 10) :
    (motorIter c5motor 1 (n + 1)).encoder = 0 := by
  show ((motorIter c5motor 1 n).update 1).1.encoder = 0
  rw [update_encoder_far_gt (c5motor_iter_target n) (by rw [he]; norm_num)
    (by rw [he]; norm_num) 1, he, c5motor_iter_limit n]
  norm_num

/-- With `limit * delta_time = 10`, the motor of `c5motor` oscillates: after
each odd tick the encoder is 10, after each even tick it is 0, never within
2 degrees of the target 3. -/
theorem c5motor_cycle : ∀ j : ℕ,
    (motorIter c5motor 1 (2*j + 1)).encoder = 10 ∧
    (motorIter c5motor 1 (2*j + 2)).encoder = 0 := by
  intro j
  induction j with
  | zero =>
      have h1 := c5motor_step_up 0 rfl
      exact ⟨h1, c5motor_step_down 1 h1⟩
  | succ j ih =>
      have h1 := c5motor_step_up (2*j + 2) ih.2
      exact ⟨h1, c5motor_step_down (2*j + 3) h1⟩

/-- Counterexample to C5 as stated: with target 3, limit 10 and
`delta_time = 1` (so `limit * delta_time = 10 > 4`) the encoder is never
within the 2-degree window of the target, at any tick. -/
theorem C5_counterexample :
    (∃ n : ℕ, |(motorIter c5motor 1 n).encoder - 3| ≤ 2) = False := by
  apply eq_false
  rintro ⟨n, hn⟩
  rcases n with _ | n
  · rw [show (motorIter c5motor 1 0).encoder = 0 from rfl] at hn
    norm_num at hn
  · rcases Nat.even_or_odd n with ⟨j, hj⟩ | ⟨j, hj⟩
    · have e : n + 1 = 2*j + 1 := by omega
      rw [e, (c5motor_cycle j).1] at hn
      norm_num at hn
    · have e : n + 1 = 2*j + 2 := by omega
      rw [e, (c5motor_cycle j).2] at hn
      norm_num at hn

/-- Draining a queue of actions that queue nothing executes them in FIFO
order, one unit of fuel each. -/
theorem drainGo_flat {α : Type} (enq : α → List α) :
    ∀ acc done : List α, (∀ b ∈ acc, enq b = []) →
      drainGo enq acc.length done acc = some (done ++ acc) := by
  intro acc
  induction acc with
  | nil =>
      intro done _
      simp [drainGo]
  | cons b rest ih =>
      intro done h
      have hb : enq b = [] := h b (List.mem_cons_self b rest)
      show drainGo enq (rest.length + 1) done (b :: rest) = some (done ++ b :: rest)
      simp only [drainGo]
      rw [hb, List.append_nil,
        ih (done ++ [b]) (fun x hx => h x (List.mem_cons_of_mem _ hx))]
      simp

/-- Draining a first-generation queue `q` (whose actions may queue
second-generation actions that queue nothing) together with an already
appended flat tail `acc` executes `q`, then `acc`, then everything `q`
queued, in order. -/
theorem drainGo_two_gen {α : Type} (enq : α → List α) :
    ∀ q acc done : List α,
      (∀ a ∈ q, ∀ b ∈ enq a, enq b = []) →
      (∀ b ∈ acc, enq b = []) →
      drainGo enq ((q ++ acc).length + (q.flatMap enq).length) done (q ++ acc)
        = some (done ++ q ++ acc ++ q.flatMap enq) := by
  intro q
  induction q with
  | nil =>
      intro acc done _ hacc
      simp only [List.nil_append, List.flatMap_nil, List.length_nil, Nat.add_zero]
      rw [drainGo_flat enq acc done hacc]
      simp
  | cons a q ih =>
      intro acc done hq hacc
      have ha2 : ∀ b ∈ enq a, enq b = [] := hq a (List.mem_cons_self a q)
      have hq' : ∀ x ∈ q, ∀ b ∈ enq x, enq b = [] := fun x hx =>
        hq x (List.mem_cons_of_mem _ hx)
      have hacc' : ∀ b ∈ acc ++ enq a, enq b = [] := by
        intro b hb
        rcases List.mem_append.mp hb with h | h
        · exact hacc b h
        · exact ha2 b h
      have hfuel : ((a :: q) ++ acc).length + ((a :: q).flatMap enq).length
          = ((q ++ (acc ++ enq a)).length + (q.flatMap enq).length) + 1 := by
        simp [List.length_append, List.flatMap_cons]
        omega
      rw [hfuel]
      have hstep : drainGo enq
            (((q ++ (acc ++ enq a)).length + (q.flatMap enq).length) + 1)
            done ((a :: q) ++ acc)
          = drainGo enq ((q ++ (acc ++ enq a)).length + (q.flatMap enq).length)
            (done ++ [a]) ((q ++ acc) ++ enq a) := by
        simp only [List.cons_append, drainGo]
        rfl
      rw [hstep, List.append_assoc q acc (enq a),
        ih (acc ++ enq a) (done ++ [a]) hq' hacc']
      congr 1
      simp [List.flatMap_cons]

/-- Claim C4 (amended): actions queued `[A, B, C]` before a tick execute in
that FIFO order during the tick's drain; but an action queued via
`run_once` by an action running during the drain is ALSO executed during
that same drain (Python's `for` loop reaches elements appended while it
iterates), after all originally queued actions; and the queue is then
cleared, so nothing survives to the following tick. -/
theorem C4_drain_order {α : Type} (enq : α → List α) (queue : List α)
    (h : ∀ a ∈ queue, ∀ b ∈ enq a, enq b = []) :
    tickDrain enq (queue.length + (queue.flatMap enq).length) queue
      = some (queue ++ queue.flatMap enq, []) := by
  unfold tickDrain
  have h2 := drainGo_two_gen enq queue [] [] h (by intro b hb; cases hb)
  simp only [List.append_nil, List.nil_append] at h2
  rw [h2]
  rfl

/-- Witness for C4 at the concrete scenario queue [0, 1, 2] with action 0
queueing action 3 during the drain. -/
theorem C4_drain_order_witness :
    tickDrain c4enq
        (([0, 1, 2] : List ℕ).length + (([0, 1, 2] : List ℕ).flatMap c4enq).length)
        [0, 1, 2]
      = some (([0, 1, 2] : List ℕ) ++ ([0, 1, 2] : List ℕ).flatMap c4enq, []) :=
  C4_drain_order c4enq [0, 1, 2] (by decide)

/-- Counterexample to C4 as stated: with `[0, 1, 2] = [A, B, C]` queued
before the tick and A queueing `3 = D` during the drain, the drain executes
`[0, 1, 2, 3]` — D runs during the same drain — and the cleared queue
leaves nothing for the following tick, while the claim predicts trace
`[0, 1, 2]` with `[3]` surviving. -/
theorem C4_counterexample :
    tickDrain c4enq 4 [0, 1, 2] = some ([0, 1, 2, 3], []) ∧
    (tickDrain c4enq 4 [0, 1, 2] = some ([0, 1, 2], [3])) = False :=
  ⟨by decide, eq_false (by decide)⟩

/-- Claim C3: the `dx == 0` branch of `intersection` accepts hits without
checking that the crossing point lies within the segment: for the vertical
ray from `(0, 0)` in direction `(0, 1)` and the segment `(1, 5)-(2, 5)`,
the code returns the accepted distance 5 even though no point of the ray
(first coordinate 0) lies on the segment (first coordinate `1 + t`,
`t ∈ [0, 1]`): the crossing parameter is `t = -1`, outside `[0, 1]`. -/
theorem C3_vertical_branch_accepts_outside_segment :
    intersection 0 0 0 1 1 5 2 5 = 5 ∧
    ∀ kk tt : ℝ, 0 ≤ tt → tt ≤ 1 →
      ((0 + kk * 0, 0 + kk * 1) : ℝ × ℝ) ≠ (1 + tt * (2 - 1), 5 + tt * (5 - 5)) := by
  constructor
  · unfold intersection
    norm_num
  · intro kk tt h0 _ heq
    have hx : (0 : ℝ) + kk * 0 = 1 + tt * (2 - 1) := congrArg Prod.fst heq
    nlinarith

/-- Every division in `intersection` is dominated by a guard on its
denominator, so the checked evaluation never raises. -/
theorem intersectionChecked_eq (x y dx dy x1 y1 x2 y2 : ℝ) :
    intersectionChecked x y dx dy x1 y1 x2 y2
      = some (intersection x y dx dy x1 y1 x2 y2) := by
  unfold intersectionChecked intersection divChecked
  by_cases hdx : dx = 0
  · simp only [if_pos hdx]
    by_cases hidx : x2 - x1 = 0
    · simp only [if_pos hidx]
    · simp only [if_neg hidx, Option.some_bind]
      split_ifs <;> rfl
  · simp only [if_neg hdx, Option.some_bind]
    by_cases ha : y2 - y1 - (x2 - x1) * (dy / dx) = 0
    · simp only [if_pos ha]
    · simp only [if_neg ha, Option.some_bind]
      split_ifs <;> rfl

/-- With a nonzero wheel distance, both divisions of `add_wheel_delta` are
guarded (`wheels_distance ≠ 0` by precondition, `k ≠ 0` by the branch). -/
theorem add_wheel_deltaChecked_eq (wd dw l r : ℝ) (p : Pose) (hdw : dw ≠ 0) :
    add_wheel_deltaChecked wd dw l r p = some (add_wheel_delta wd dw l r p) := by
  unfold add_wheel_deltaChecked add_wheel_delta divChecked
  rw [if_neg hdw]
  by_cases hk : ((r - l) * Real.pi * wd / 360) / dw = 0 <;>
    simp [hk]

theorem raytraceGoChecked_eq (x y dx dy : ℝ) :
    ∀ (segs : List Seg) (best : Option ℝ),
      raytraceGoChecked x y dx dy segs best
        = some (raytraceGo x y dx dy segs best) := by
  intro segs
  induction segs with
  | nil => intro best; rfl
  | cons sg rest ih =>
      intro best
      cases best with
      | none =>
          simp only [raytraceGoChecked, raytraceGo, segInter, intersectionChecked_eq,
            Option.some_bind]
          split_ifs <;> exact ih _
      | some b =>
          simp only [raytraceGoChecked, raytraceGo, segInter, intersectionChecked_eq,
            Option.some_bind]
          split_ifs <;> exact ih _

theorem read_mmChecked_eq (x y heading r0 r1 r2 r3 : ℝ) :
    read_mmChecked x y heading r0 r1 r2 r3
      = some (read_mm x y heading r0 r1 r2 r3) := by
  unfold read_mmChecked read_mm raytraceChecked raytrace
  simp only [raytraceGoChecked_eq]
  rfl

/-- Claim C10: every division the core executes is guarded, so no operation
raises a division-by-zero error: `intersection` (hence `raytrace` and
`read_mm`) never raises for any inputs, and `add_wheel_delta` never raises
when `wheels_distance ≠ 0`; the checked (exception-aware) evaluations agree
with the total functions everywhere. -/
theorem C10_divisions_guarded :
    (∀ x y dx dy x1 y1 x2 y2 : ℝ,
      intersectionChecked x y dx dy x1 y1 x2 y2
        = some (intersection x y dx dy x1 y1 x2 y2)) ∧
    (∀ wd dw l r : ℝ, ∀ p : Pose, dw ≠ 0 →
      add_wheel_deltaChecked wd dw l r p = some (add_wheel_delta wd dw l r p)) ∧
    (∀ x y dx dy : ℝ, ∀ segs : List Seg,
      raytraceChecked x y dx dy segs = some (raytrace x y dx dy segs)) ∧
    (∀ x y heading r0 r1 r2 r3 : ℝ,
      read_mmChecked x y heading r0 r1 r2 r3
        = some (read_mm x y heading r0 r1 r2 r3)) :=
  ⟨intersectionChecked_eq,
   fun wd dw l r p hdw => add_wheel_deltaChecked_eq wd dw l r p hdw,
   fun x y dx dy segs => raytraceGoChecked_eq x y dx dy segs none,
   read_mmChecked_eq⟩

/-- Witness for C10 at concrete inputs (wheel distance 117 ≠ 0). -/
theorem C10_divisions_guarded_witness :
    add_wheel_deltaChecked 66.5 117 30 60 { x := 0, y := 0, heading := 0 }
      = some (add_wheel_delta 66.5 117 30 60 { x := 0, y := 0, heading := 0 }) ∧
    intersectionChecked 1 2 3 4 5 6 7 8 = some (intersection 1 2 3 4 5 6 7 8) :=
  ⟨C10_divisions_guarded.2.1 66.5 117 30 60 _ (by norm_num),
   C10_divisions_guarded.1 1 2 3 4 5 6 7 8⟩

/-- Once the raytrace loop holds a best distance it can never end with
`float('inf')`. -/
theorem raytraceGo_some_ne_none (x y dx dy : ℝ) :
    ∀ (segs : List Seg) (b : ℝ), raytraceGo x y dx dy segs (some b) ≠ none := by
  intro segs
  induction segs with
  | nil => intro b h; exact Option.noConfusion h
  | cons sg rest ih =>
      intro b
      simp only [raytraceGo]
      split_ifs <;> apply ih

/-- The raytrace loop returns `float('inf')` exactly when every segment's
intersection distance is rejected (negative). -/
theorem raytraceGo_none_iff (x y dx dy : ℝ) :
    ∀ segs : List Seg,
      (raytraceGo x y dx dy segs none = none
        ↔ ∀ sg ∈ segs, segInter x y dx dy sg < 0) := by
  intro segs
  induction segs with
  | nil => simp [raytraceGo]
  | cons sg rest ih =>
      simp only [raytraceGo]
      by_cases hd : 0 ≤ segInter x y dx dy sg
      · rw [if_pos hd]
        constructor
        · intro h
          exact absurd h (raytraceGo_some_ne_none x y dx dy rest _)
        · intro h
          exact absurd hd (not_le.mpr (h sg (List.mem_cons_self _ _)))
      · rw [if_neg hd, ih]
        constructor
        · intro h sg2 hsg2
          rcases List.mem_cons.mp hsg2 with h2 | h2
          · rw [h2]
            exact not_le.mp hd
          · exact h sg2 h2
        · intro h sg2 hsg2
          exact h sg2 (List.mem_cons_of_mem _ hsg2)

/-- A distance returned by the raytrace loop is a lower bound of every
accepted (non-negative) intersection distance, is at most the incoming
best, and is either the incoming best or an accepted distance of some
segment of the list. -/
theorem raytraceGo_min (x y dx dy : ℝ) :
    ∀ (segs : List Seg) (best : Option ℝ) (d : ℝ),
      raytraceGo x y dx dy segs best = some d →
      (∀ sg ∈ segs, 0 ≤ segInter x y dx dy sg → d ≤ segInter x y dx dy sg) ∧
      (∀ b : ℝ, best = some b → d ≤ b) ∧
      (best = some d ∨
        ∃ sg ∈ segs, segInter x y dx dy sg = d ∧ 0 ≤ d) := by
  intro segs
  induction segs with
  | nil =>
      intro best d h
      refine ⟨fun sg hsg => absurd hsg (List.not_mem_nil sg), ?_, Or.inl h⟩
      intro b hb
      exact le_of_eq (Option.some_inj.mp ((h : best = some d).symm.trans hb))
  | cons sg rest ih =>
      intro best d h
      cases best with
      | none =>
          simp only [raytraceGo] at h
          by_cases h0 : 0 ≤ segInter x y dx dy sg
          · rw [if_pos h0] at h
            obtain ⟨hmin, hbest, hmem⟩ := ih (some (segInter x y dx dy sg)) d h
            have hd0 : d ≤ segInter x y dx dy sg := hbest _ rfl
            refine ⟨?_, fun b hb => Option.noConfusion hb, Or.inr ?_⟩
            · intro sg2 hsg2 hpos
              rcases List.mem_cons.mp hsg2 with h2 | h2
              · rw [h2]
                exact hd0
              · exact hmin sg2 h2 hpos
            · rcases hmem with hm | ⟨sg2, hsg2, he, hd⟩
              · have : segInter x y dx dy sg = d := Option.some_inj.mp hm
                exact ⟨sg, List.mem_cons_self _ _, this, this ▸ h0⟩
              · exact ⟨sg2, List.mem_cons_of_mem _ hsg2, he, hd⟩
          · rw [if_neg h0] at h
            obtain ⟨hmin, _, hmem⟩ := ih none d h
            refine ⟨?_, fun b hb => Option.noConfusion hb, ?_⟩
            · intro sg2 hsg2 hpos
              rcases List.mem_cons.mp hsg2 with h2 | h2
              · exact absurd (h2 ▸ hpos) h0
              · exact hmin sg2 h2 hpos
            · rcases hmem with hm | ⟨sg2, hsg2, he, hd⟩
              · exact Option.noConfusion hm
              · exact Or.inr ⟨sg2, List.mem_cons_of_mem _ hsg2, he, hd⟩
      | some b0 =>
          simp only [raytraceGo] at h
          by_cases hacc : 0 ≤ segInter x y dx dy sg ∧ segInter x y dx dy sg < b0
          · rw [if_pos hacc] at h
            obtain ⟨hmin, hbest, hmem⟩ := ih (some (segInter x y dx dy sg)) d h
            have hd0 : d ≤ segInter x y dx dy sg := hbest _ rfl
            refine ⟨?_, ?_, ?_⟩
            · intro sg2 hsg2 hpos
              rcases List.mem_cons.mp hsg2 with h2 | h2
              · rw [h2]
                exact hd0
              · exact hmin sg2 h2 hpos
            · intro b hb
              have hbb : b0 = b := Option.some_inj.mp hb
              subst hbb
              exact le_of_lt (lt_of_le_of_lt hd0 hacc.2)
            · rcases hmem with hm | ⟨sg2, hsg2, he, hd⟩
              · have : segInter x y dx dy sg = d := Option.some_inj.mp hm
                exact Or.inr ⟨sg, List.mem_cons_self _ _, this, this ▸ hacc.1⟩
              · exact Or.inr ⟨sg2, List.mem_cons_of_mem _ hsg2, he, hd⟩
          · rw [if_neg hacc] at h
            obtain ⟨hmin, hbest, hmem⟩ := ih (some b0) d h
            have hdb : d ≤ b0 := hbest b0 rfl
            refine ⟨?_, ?_, ?_⟩
            · intro sg2 hsg2 hpos
              rcases List.mem_cons.mp hsg2 with h2 | h2
              · subst h2
                have hge : b0 ≤ segInter x y dx dy sg2 := by
                  by_contra hcon
                  exact hacc ⟨hpos, not_le.mp hcon⟩
                exact le_trans hdb hge
              · exact hmin sg2 h2 hpos
            · intro b hb
              rw [← Option.some_inj.mp hb]
              exact hdb
            · rcases hmem with hm | ⟨sg2, hsg2, he, hd⟩
              · exact Or.inl hm
              · exact Or.inr ⟨sg2, List.mem_cons_of_mem _ hsg2, he, hd⟩

/-- Claim C6 (amended): `read_mm` returns the saturation sentinel 8190 IF
no boundary segment yields an accepted intersection (`raytrace` returns
`float('inf')`); and when some segment is hit it returns the minimum
accepted intersection distance over the 4 segments — which can itself be
exactly 8190, so the sentinel value does not imply the absence of a hit. -/
theorem C6_read_mm_saturation_and_minimum (x y heading r0 r1 r2 r3 : ℝ) :
    ((∀ sg ∈ ([(r0, r1, r2, r1), (r2, r1, r2, r3), (r2, r3, r0, r3),
        (r0, r3, r0, r1)] : List Seg),
        segInter x y (Real.cos heading) (Real.sin heading) sg < 0) →
      read_mm x y heading r0 r1 r2 r3 = 8190) ∧
    (∀ d : ℝ,
      raytrace x y (Real.cos heading) (Real.sin heading)
          [(r0, r1, r2, r1), (r2, r1, r2, r3), (r2, r3, r0, r3), (r0, r3, r0, r1)]
        = some d →
      read_mm x y heading r0 r1 r2 r3 = d ∧ 0 ≤ d ∧
      (∃ sg ∈ ([(r0, r1, r2, r1), (r2, r1, r2, r3), (r2, r3, r0, r3),
          (r0, r3, r0, r1)] : List Seg),
          segInter x y (Real.cos heading) (Real.sin heading) sg = d) ∧
      (∀ sg ∈ ([(r0, r1, r2, r1), (r2, r1, r2, r3), (r2, r3, r0, r3),
          (r0, r3, r0, r1)] : List Seg),
          0 ≤ segInter x y (Real.cos heading) (Real.sin heading) sg →
            d ≤ segInter x y (Real.cos heading) (Real.sin heading) sg)) := by
  constructor
  · intro hall
    have hnone : raytrace x y (Real.cos heading) (Real.sin heading)
        [(r0, r1, r2, r1), (r2, r1, r2, r3), (r2, r3, r0, r3), (r0, r3, r0, r1)]
        = none :=
      (raytraceGo_none_iff x y (Real.cos heading) (Real.sin heading) _).mpr hall
    unfold read_mm
    simp only [hnone]
  · intro d hd
    obtain ⟨hmin, _, hmem⟩ :=
      raytraceGo_min x y (Real.cos heading) (Real.sin heading) _ none d hd
    refine ⟨?_, ?_, ?_, hmin⟩
    · unfold read_mm
      simp only [hd]
    · rcases hmem with hm | ⟨sg, _, _, hpos⟩
      · exact Option.noConfusion hm
      · exact hpos
    · rcases hmem with hm | ⟨sg, hsg, he, _⟩
      · exact Option.noConfusion hm
      · exact ⟨sg, hsg, he⟩

/-- Counterexample to C6's "if and only if": the robot at the origin of the
rectangle `(-10, -10, 8190, 10)`, heading 0 (ray direction `(1, 0)`), hits
the right wall at distance exactly 8190, so `read_mm` returns 8190 even
though a segment is hit (`raytrace` returns `some 8190`, not infinity). -/
theorem C6_counterexample :
    read_mm 0 0 0 (-10) (-10) 8190 10 = 8190 ∧
    raytrace 0 0 (Real.cos 0) (Real.sin 0)
      [((-10 : ℝ), (-10 : ℝ), (8190 : ℝ), (-10 : ℝ)), (8190, -10, 8190, 10),
       (8190, 10, -10, 10), (-10, 10, -10, -10)] = some 8190 := by
  have h1 : intersection 0 0 1 0 (-10) (-10) 8190 (-10) = -1 := by
    unfold intersection
    norm_num
  have h2 : intersection 0 0 1 0 8190 (-10) 8190 10 = 8190 := by
    unfold intersection
    norm_num
    rw [show (67076100 : ℝ) = 8190^2 by norm_num]
    exact Real.sqrt_sq (by norm_num)
  have h3 : intersection 0 0 1 0 8190 10 (-10) 10 = -1 := by
    unfold intersection
    norm_num
  have h4 : intersection 0 0 1 0 (-10) 10 (-10) (-10) = -1 := by
    unfold intersection
    norm_num
  have hray : raytrace 0 0 1 0
      [((-10 : ℝ), (-10 : ℝ), (8190 : ℝ), (-10 : ℝ)), (8190, -10, 8190, 10),
       (8190, 10, -10, 10), (-10, 10, -10, -10)] = some 8190 := by
    unfold raytrace
    simp only [raytraceGo, segInter]
    norm_num [h1, h2, h3, h4]
  constructor
  · unfold read_mm
    rw [Real.cos_zero, Real.sin_zero]
    simp only [hray]
  · rw [Real.cos_zero, Real.sin_zero]
    exact hray

/-- Closed form of iterating a constant-curvature arc step: for any step
function of the `add_wheel_delta` shape with per-tick heading change `k`
and mean travel `s`, `n` iterations land on the same arc at parameter
`n * k`, with no accumulation. -/
theorem arcStep_iterate (k s : ℝ) (f : Pose → Pose)
    (hf : ∀ p : Pose, f p =
      if k ≠ 0 then
        { x := p.x + (Real.sin (k + p.heading) - Real.sin p.heading) / k * s,
          y := p.y + (-Real.cos (k + p.heading) + Real.cos p.heading) / k * s,
          heading := p.heading + k }
      else
        { x := p.x + Real.cos p.heading * s,
          y := p.y + Real.sin p.heading * s,
          heading := p.heading + k }) :
    ∀ (n : ℕ) (p : Pose), f^[n] p =
      if k = 0 then
        { x := p.x + n * (Real.cos p.heading * s),
          y := p.y + n * (Real.sin p.heading * s),
          heading := p.heading }
      else
        { x := p.x + (Real.sin (p.heading + n * k) - Real.sin p.heading) / k * s,
          y := p.y + (-Real.cos (p.heading + n * k) + Real.cos p.heading) / k * s,
          heading := p.heading + n * k } := by
  intro n
  induction n with
  | zero =>
      intro p
      split <;> (ext <;> simp)
  | succ n ih =>
      intro p
      rw [Function.iterate_succ_apply', ih p, hf _]
      by_cases hk : k = 0
      · subst hk
        norm_num
        constructor <;> ring
      · simp only [if_pos hk, if_neg hk]
        have harg : k + (p.heading + (n : ℝ) * k) = p.heading + ((n : ℝ) + 1) * k := by
          ring
        ext
        · push_cast
          rw [harg]
          ring
        · push_cast
          rw [harg]
          ring
        · push_cast
          ring

/-- Claim C2: for every starting pose, wheel geometry with nonzero
`wheels_distance`, wheel-delta pair `(l, r)` and `N ≥ 1`, applying
`add_wheel_delta` `N` times with the deltas `(l/N, r/N)` produces exactly
the pose of a single call `add_wheel_delta l r`: the closed-form arc
integration composes exactly, accumulating no discretization error. -/
theorem C2_subdivided_ticks_compose (wd dw l r : ℝ) (p : Pose) (N : ℕ)
    (_hdw : dw ≠ 0) (hN : 1 ≤ N) :
    (add_wheel_delta wd dw (l / (N : ℝ)) (r / (N : ℝ)))^[N] p
      = add_wheel_delta wd dw l r p := by
  have hNR : (N : ℝ) ≠ 0 := Nat.cast_ne_zero.mpr (by omega)
  have hk' : ((r / (N : ℝ) - l / (N : ℝ)) * Real.pi * wd / 360) / dw
      = (((r - l) * Real.pi * wd / 360) / dw) / (N : ℝ) := by
    ring
  have hs' : ((r / (N : ℝ) + l / (N : ℝ)) * Real.pi * wd / 360) / 2
      = (((r + l) * Real.pi * wd / 360) / 2) / (N : ℝ) := by
    ring
  rw [arcStep_iterate ((((r - l) * Real.pi * wd / 360) / dw) / (N : ℝ))
    ((((r + l) * Real.pi * wd / 360) / 2) / (N : ℝ))
    (add_wheel_delta wd dw (l / (N : ℝ)) (r / (N : ℝ)))
    (fun q => by simp only [add_wheel_delta]; rw [hk', hs']) N p]
  simp only [add_wheel_delta]
  set K := ((r - l) * Real.pi * wd / 360) / dw with hK
  set S := ((r + l) * Real.pi * wd / 360) / 2 with hS
  by_cases hk0 : K = 0
  · rw [hk0]
    rw [if_pos (zero_div (N : ℝ))]
    rw [if_neg (by norm_num : ¬((0:ℝ) ≠ 0))]
    ext
    · field_simp
    · field_simp
    · simp
  · have hkN : K / (N : ℝ) ≠ 0 := div_ne_zero hk0 hNR
    rw [if_neg hkN, if_pos hk0]
    have hNK : (N : ℝ) * (K / (N : ℝ)) = K := by field_simp
    ext
    · rw [hNK, add_comm p.heading K]
      field_simp
      ring
    · rw [hNK, add_comm p.heading K]
      field_simp
      ring
    · rw [hNK]

/-- Witness for C2: wheel diameter 66.5, wheel distance 117, deltas
(30, 60), split into N = 2 sub-ticks. -/
theorem C2_subdivided_ticks_compose_witness :
    (add_wheel_delta 66.5 117 (30 / ((2 : ℕ) : ℝ)) (60 / ((2 : ℕ) : ℝ)))^[2]
        { x := 0, y := 0, heading := 0 }
      = add_wheel_delta 66.5 117 30 60 { x := 0, y := 0, heading := 0 } :=
  C2_subdivided_ticks_compose 66.5 117 30 60 { x := 0, y := 0, heading := 0 } 2
    (by norm_num) (by norm_num)

/-- Claim C9: `get_encoder` returns the integer `int(encoder + 0.5)`
(truncation toward zero).  For a non-negative encoder this is round-half-up
(`⌊encoder + 1/2⌋`), but for a negative encoder whose fractional part
exceeds 0.5 the truncation lands one above the floor: encoder `-10.6`
reads as `-10`, while `⌊-10.6 + 0.5⌋ = -11`. -/
theorem C9_get_encoder_truncates_toward_zero :
    (∀ m : GoPiGoMotor, 0 ≤ m.encoder → m.get_encoder = ⌊m.encoder + 1/2⌋) ∧
    ({ GoPiGoMotor.init with encoder := -53/5 } : GoPiGoMotor).get_encoder = -10 ∧
    ⌊(-53/5 : ℚ) + 1/2⌋ = -11 := by
  refine ⟨fun m h => ?_, ?_, ?_⟩
  · unfold GoPiGoMotor.get_encoder intTrunc
    rw [if_neg (by linarith : ¬ m.encoder + 1/2 < 0)]
  · unfold GoPiGoMotor.get_encoder intTrunc
    rw [if_pos (by norm_num : (-53/5 : ℚ) + 1/2 < 0), Int.ceil_eq_iff]
    norm_num
  · rw [Int.floor_eq_iff]
    norm_num

end RobotEmu
